import Mathlib

/-!
Verification of the two-level hash table, the recursive trie hash table, the
route/virus traversal and the manager facade of this repository, via a shallow
embedding in Lean.  Keys and names are embedded as lists of character codes
(`List Nat`); machine behaviour of the Python source is mirrored by executable
definitions, with integer counters as `Int` (Python integers are unbounded).
-/

set_option linter.unusedVariables false

/-! ## Hash functions (`double_key_table.py`, `hash1` / `hash2`) -/

/-- `HASH_BASE` class constant of `DoubleKeyTable`. -/
def HASH_BASE : Nat := 31

/-- `DoubleKeyTable.hash1`: rolling hash over the key's character codes.
`tableSize` is `self.table_size` at call time.  The loop state is the pair
`(value, a)`, updated per character exactly as in the source. -/
def hash1 (tableSize : Nat) (key : List Nat) : Nat :=
  (key.foldl
    (fun p c => ((c + p.2 * p.1) % tableSize, p.2 * HASH_BASE % (tableSize - 1)))
    (0, 31417)).1

/-- `DoubleKeyTable.hash2`: same recurrence as `hash1` but taken modulo the
sub-table's `table_size`. -/
def hash2 (key : List Nat) (subTableSize : Nat) : Nat :=
  (key.foldl
    (fun p c => ((c + p.2 * p.1) % subTableSize, p.2 * HASH_BASE % (subTableSize - 1)))
    (0, 31417)).1

/-- The hash recurrence exactly as the specification words it:
`value = (char_code + a*value) mod capacity; a = a*31 mod (capacity-1)`,
seeded `a = 31417, value = 0`, characters processed in order.  This is the
spec-side definition compared against `hash1`/`hash2` for claim C7. -/
def specHashValue (capacity : Nat) (key : List Nat) : Nat :=
  specHashGo capacity key 0 31417
where
  /-- One step per character of the spec recurrence. -/
  specHashGo (capacity : Nat) : List Nat → Nat → Nat → Nat
    | [], value, _ => value
    | c :: rest, value, a =>
        specHashGo capacity rest ((c + a * value) % capacity) (a * 31 % (capacity - 1))

/-! ## Bounded linear-probe sub-table

`data_structures/hash_table.py` is not part of `src/`; the sub-table is
modelled from the specification (section 4.1). -/

/-- Modelled from the spec: the probe loop shared by the Bounded Linear-Probe
Table (spec 4.1) and by `DoubleKeyTable.get_position` in its single-key form
(`condition = False`): walk forward (wrapping) from the home position for at
most `steps = table_size` probes; an empty slot yields the position when
inserting and a not-found error when looking up; a slot holding an equal key
yields its position; otherwise advance one slot. -/
def slotProbeGo {β : Type} (arr : List (Option (List Nat × β))) (key : List Nat)
    (isInsert : Bool) : Nat → Nat → Option Nat
  | _, 0 => none
  | pos, steps + 1 =>
    match arr.get? pos with
    | some none => if isInsert then some pos else none
    | some (some (k, _)) =>
        if k = key then some pos
        else slotProbeGo arr key isInsert ((pos + 1) % arr.length) steps
    | none => none

/-- Modelled from the spec: the Bounded Linear-Probe Table of section 4.1
(`LinearProbeTable`, whose source file `data_structures/hash_table.py` is not
under `src/`), as used for the sub-tables of the two-level hash table: a
fixed-capacity open-addressing map over one string key, with a capacity
schedule `sizes` entered at index `sizeIndex`, a backing array of optional
(key, value) slots and an occupancy `count`. -/
structure LPT (V : Type) where
  sizes : List Nat
  sizeIndex : Nat
  arr : List (Option (List Nat × V))
  count : Int
deriving Repr

namespace LPT

variable {V : Type}

/-- Current capacity (`table_size` property). -/
def tableSize (t : LPT V) : Nat := t.arr.length

/-- Modelled from the spec: a fresh table takes the first capacity of its
schedule (the two-level table creates sub-tables with
`LinearProbeTable(self.internal_sizes)`). -/
def create (V : Type) (sizes : List Nat) : LPT V :=
  { sizes := sizes, sizeIndex := 0, arr := List.replicate (sizes.headD 0) none, count := 0 }

/-- `is_empty()`: no occupied slot, tracked by `count`. -/
def isEmpty (t : LPT V) : Bool := t.count == 0

/-- Modelled from the spec: probing starts at the hash of the key modulo the
capacity; the two-level table installs `hash2` (with the sub-table's own
capacity) as the sub-table's hash function. -/
def linearProbe (t : LPT V) (key : List Nat) (isInsert : Bool) : Option Nat :=
  slotProbeGo t.arr key isInsert (hash2 key t.tableSize) t.tableSize

/-- Modelled from the spec: place one (key, value) pair by probing, used when
`rehash` reinserts every existing entry into the freshly sized array; the
count grows only when a previously empty slot is filled. -/
def insertRaw (t : LPT V) (key : List Nat) (v : V) : LPT V :=
  match t.linearProbe key true with
  | none => t
  | some pos =>
    let isNew := match t.arr.get? pos with | some none => true | _ => false
    { t with arr := t.arr.set pos (some (key, v)),
             count := t.count + (if isNew then 1 else 0) }

/-- Modelled from the spec: growth advances to the next capacity of the
schedule (a no-op if already at the largest size) and reinserts every existing
entry into a freshly sized backing array using the new capacity's hash
function. -/
def rehash (t : LPT V) : LPT V :=
  if h : t.sizeIndex + 1 < t.sizes.length then
    t.arr.foldl
      (fun acc e => match e with
        | some (k, v) => acc.insertRaw k v
        | none => acc)
      { t with sizeIndex := t.sizeIndex + 1,
               arr := List.replicate (t.sizes.get ⟨t.sizeIndex + 1, h⟩) none,
               count := 0 }
  else t

/-- Modelled from the spec: `set(key, value)` probes from the home slot until
an empty slot or an equal key, inserts or overwrites there, and triggers
growth when the resulting load factor exceeds capacity/2; `none` is the fatal
full-table error. -/
def setPair (t : LPT V) (key : List Nat) (v : V) : Option (LPT V) :=
  match t.linearProbe key true with
  | none => none
  | some pos =>
    let isNew := match t.arr.get? pos with | some none => true | _ => false
    let t1 : LPT V :=
      { t with arr := t.arr.set pos (some (key, v)),
               count := t.count + (if isNew then 1 else 0) }
    some (if 2 * t1.count > (t1.tableSize : Int) then t1.rehash else t1)

/-- Modelled from the spec: the deletion walk — from the freed slot, re-insert
every subsequent contiguous occupied slot (clearing it first and probing it
back in), stopping at the first empty slot.  `fuel` bounds the walk by the
capacity; exhausting it is reported as failure. -/
def compactFrom : Nat → LPT V → Nat → Option (LPT V)
  | 0, t, pos =>
    match t.arr.get? pos with
    | some (some _) => none
    | some none => some t
    | none => none
  | fuel + 1, t, pos =>
    match t.arr.get? pos with
    | some (some (k, v)) =>
      match ({ t with arr := t.arr.set pos none } : LPT V).linearProbe k true with
      | none => none
      | some np =>
          compactFrom fuel
            { t with arr := (t.arr.set pos none).set np (some (k, v)) }
            ((pos + 1) % t.tableSize)
    | some none => some t
    | none => none

/-- Modelled from the spec: `delete(key)` locates the slot by probing (a
not-found error if the key is absent), clears it, and runs the forward
compaction walk to preserve probe reachability. -/
def delPair (t : LPT V) (key : List Nat) : Option (LPT V) :=
  match t.linearProbe key false with
  | none => none
  | some pos =>
    compactFrom t.tableSize
      { t with arr := t.arr.set pos none, count := t.count - 1 }
      ((pos + 1) % t.tableSize)

/-- Keys currently stored in slot order. -/
def storedKeys (t : LPT V) : List (List Nat) :=
  t.arr.filterMap (fun e => e.map Prod.fst)

/-- Values currently stored in slot order (`values()` of the sub-table as read
by `DoubleKeyTable.get_keys_or_values`). -/
def storedValues (t : LPT V) : List V :=
  t.arr.filterMap (fun e => e.map Prod.snd)

end LPT

/-! ## Two-level hash table (`double_key_table.py`) -/

/-- Keys stored in an outer-level slot array, in slot order. -/
def storedKeysA {β : Type} (arr : List (Option (List Nat × β))) : List (List Nat) :=
  arr.filterMap (fun e => e.map Prod.fst)

/-- `DoubleKeyTable.TABLE_SIZES` default capacity schedule. -/
def DKT_TABLE_SIZES : List Nat :=
  [5, 13, 29, 53, 97, 193, 389, 769, 1543, 3079, 6151, 12289, 24593, 49157,
   98317, 196613, 393241, 786433, 1572869]

/-- `DoubleKeyTable`: outer linear-probe array of optional (key1, sub-table)
slots; `count` counts top-level (key1) groups. -/
structure DKT (V : Type) where
  sizes : List Nat
  internalSizes : List Nat
  sizeIndex : Nat
  arr : List (Option (List Nat × LPT V))
  count : Int
deriving Repr

namespace DKT

variable {V : Type}

/-- `table_size` property: length of the outer array. -/
def tableSize (t : DKT V) : Nat := t.arr.length

/-- `DoubleKeyTable.__init__` with explicit schedules (`None` arguments are
the defaults `DKT_TABLE_SIZES`). -/
def create (V : Type) (sizes internalSizes : List Nat) : DKT V :=
  { sizes := sizes, internalSizes := internalSizes, sizeIndex := 0,
    arr := List.replicate (sizes.headD 0) none, count := 0 }

/-- `DoubleKeyTable.get_position` with `condition = True` (dual-key probing):
walk at most `table_size` slots from the start position.  An empty slot, when
inserting, receives a fresh internal table (`create_internal_table`) and the
second index is `hash2(key2, fresh sub-table)`; a slot with matching key1
probes key2 inside its sub-table; otherwise advance.  Returns the two
positions together with the (possibly updated) outer array. -/
def probe2Go (arr : List (Option (List Nat × LPT V))) (internalSizes : List Nat)
    (k1 k2 : List Nat) (isInsert : Bool) :
    Nat → Nat → Option (Nat × Nat × List (Option (List Nat × LPT V)))
  | _, 0 => none
  | pos, steps + 1 =>
    match arr.get? pos with
    | some none =>
      if isInsert then
        let sub : LPT V := LPT.create V internalSizes
        some (pos, hash2 k2 sub.tableSize, arr.set pos (some (k1, sub)))
      else none
    | some (some (k1', sub)) =>
      if k1' = k1 then
        match sub.linearProbe k2 isInsert with
        | some p2 => some (pos, p2, arr)
        | none => none
      else probe2Go arr internalSizes k1 k2 isInsert ((pos + 1) % arr.length) steps
    | none => none

/-- `DoubleKeyTable._linear_probe(key1, key2, is_insert)` with `key2`
present: start at `hash1(key1)`. -/
def probe2 (t : DKT V) (k1 k2 : List Nat) (isInsert : Bool) :
    Option (Nat × Nat × List (Option (List Nat × LPT V))) :=
  probe2Go t.arr t.internalSizes k1 k2 isInsert (hash1 t.tableSize k1) t.tableSize

/-- `DoubleKeyTable._linear_probe(key1, None, is_insert)`: the single-key
probe used by deletion compaction and by `keys(k)`/`values(k)`. -/
def probe1 (t : DKT V) (k1 : List Nat) (isInsert : Bool) : Option Nat :=
  slotProbeGo t.arr k1 isInsert (hash1 t.tableSize k1) t.tableSize

/-- `DoubleKeyTable._rehash`: advance `size_index` (when the schedule is
exhausted the method silently returns, the index already bumped); otherwise
allocate the new outer array, reset `count`, and for every stored
(key1, sub-table) pair, rehash the sub-table if over half full and write the
pair directly at `hash1(key1)` in the new array (no probing), incrementing
`count`. -/
def rehash (t : DKT V) : DKT V :=
  if h : t.sizeIndex + 1 < t.sizes.length then
    t.arr.foldl
      (fun acc e => match e with
        | none => acc
        | some (k1, sub) =>
          let sub2 := if 2 * sub.count > (sub.tableSize : Int) then sub.rehash else sub
          { acc with arr := acc.arr.set (hash1 acc.tableSize k1) (some (k1, sub2)),
                     count := acc.count + 1 })
      { t with sizeIndex := t.sizeIndex + 1,
               arr := List.replicate (t.sizes.get ⟨t.sizeIndex + 1, h⟩) none,
               count := 0 }
  else { t with sizeIndex := t.sizeIndex + 1 }

/-- `DoubleKeyTable.__setitem__`: probe (creating the sub-table when key1 is
new), bump `count` when the target sub-table is empty, insert key2 into the
sub-table, then grow the outer table when `len(self) > table_size / 2`. -/
def setItem (t : DKT V) (k1 k2 : List Nat) (v : V) : Option (DKT V) :=
  match t.probe2 k1 k2 true with
  | none => none
  | some (p1, _, arr1) =>
    match arr1.get? p1 with
    | some (some (k1', sub)) =>
      let cnt := if sub.isEmpty then t.count + 1 else t.count
      match sub.setPair k2 v with
      | none => none
      | some sub2 =>
        let t2 : DKT V :=
          { t with arr := arr1.set p1 (some (k1', sub2)), count := cnt }
        some (if 2 * t2.count > (t2.tableSize : Int) then t2.rehash else t2)
    | _ => none

/-- The `while self.array[position1] is not None` compaction loop of
`DoubleKeyTable.__delitem__`: take the (key1, sub-table) pair out of the
current slot, re-probe key1 (insert mode) and put the pair at the found
position, then advance; stop at the first empty slot.  `fuel` bounds the walk
(one capacity's worth of slots suffices for the states exercised here). -/
def outerCompact : Nat → DKT V → Nat → Option (DKT V)
  | 0, t, pos =>
    match t.arr.get? pos with
    | some (some _) => none
    | some none => some t
    | none => none
  | fuel + 1, t, pos =>
    match t.arr.get? pos with
    | some (some (k1, sub)) =>
      match ({ t with arr := t.arr.set pos none } : DKT V).probe1 k1 true with
      | none => none
      | some np =>
          outerCompact fuel
            { t with arr := (t.arr.set pos none).set np (some (k1, sub)) }
            ((pos + 1) % t.tableSize)
    | some none => some t
    | none => none

/-- `DoubleKeyTable.__delitem__`: locate the pair, delete key2 from its
sub-table; when the sub-table becomes empty, clear the outer slot, decrement
`count` and run the outer compaction walk. -/
def delItem (t : DKT V) (k1 k2 : List Nat) : Option (DKT V) :=
  match t.probe2 k1 k2 false with
  | none => none
  | some (p1, _, _) =>
    match t.arr.get? p1 with
    | some (some (k1', sub)) =>
      match sub.delPair k2 with
      | none => none
      | some sub2 =>
        if sub2.isEmpty then
          outerCompact t.tableSize
            { t with arr := t.arr.set p1 none, count := t.count - 1 }
            ((p1 + 1) % t.tableSize)
        else some { t with arr := t.arr.set p1 (some (k1', sub2)) }
    | _ => none

/-- `DoubleKeyTable.__getitem__`: dual-key lookup probe, then read
`array[position1][1].array[position2][1]`. -/
def getItem (t : DKT V) (k1 k2 : List Nat) : Option V :=
  match t.probe2 k1 k2 false with
  | none => none
  | some (p1, p2, _) =>
    match t.arr.get? p1 with
    | some (some (_, sub)) => ((sub.arr.get? p2).join).map Prod.snd
    | _ => none

/-- `DoubleKeyTable.__contains__`: lookup, catching the not-found error. -/
def contains (t : DKT V) (k1 k2 : List Nat) : Bool :=
  (t.getItem k1 k2).isSome

/-- `DoubleKeyTable.keys(None)`: key1 of every occupied outer slot, in slot
order. -/
def keys (t : DKT V) : List (List Nat) := storedKeysA t.arr

/-- `DoubleKeyTable.values(key)` via `get_keys_or_values`: locate the key1
group (not-found error if absent) and collect its sub-table's values in slot
order. -/
def valuesFor (t : DKT V) (key : List Nat) : Option (List V) :=
  match t.probe1 key false with
  | none => none
  | some pos =>
    match t.arr.get? pos with
    | some (some (_, sub)) => some sub.storedValues
    | _ => none

end DKT

/-- A fresh `DoubleKeyTable()` with default schedules, storing `Nat` values. -/
def dktNew : DKT Nat := DKT.create Nat DKT_TABLE_SIZES DKT_TABLE_SIZES

/-- Run a list of `set` operations (((key1, key2), value) triples) from a
starting table, stopping on failure. -/
def runSets (t : DKT Nat) : List ((List Nat × List Nat) × Nat) → Option (DKT Nat)
  | [] => some t
  | ((k1, k2), v) :: rest =>
    match t.setItem k1 k2 v with
    | some t2 => runSets t2 rest
    | none => none

/-- Number of distinct key1 groups currently holding at least one key2 entry. -/
def dktGroupCount (t : DKT Nat) : Nat :=
  (((t.arr.filterMap id).filter (fun p => p.2.arr.any (fun s => s.isSome))).map
    Prod.fst).dedup.length

/-! ## Hash recurrence lemma (claim C7) -/

theorem foldl_hash_eq_specGo (cap : Nat) :
    ∀ (key : List Nat) (value a : Nat),
      (key.foldl
        (fun p c => ((c + p.2 * p.1) % cap, p.2 * HASH_BASE % (cap - 1)))
        (value, a)).1 = specHashValue.specHashGo cap key value a := by
  intro key
  induction key with
  | nil => intro value a; rfl
  | cons c rest ih =>
      intro value a
      simp only [List.foldl_cons, specHashValue.specHashGo]
      exact ih ((c + a * value) % cap) (a * HASH_BASE % (cap - 1))

/-- C7: for every string key, `hash1` of the Two-Level Hash Table (and
`hash2` applied with a sub-table's capacity) computes exactly the recurrence
`value = (char_code + a*value) mod capacity; a = a*31 mod (capacity-1)`,
processed over the key's characters in order, seeded `a = 31417`,
`value = 0`. -/
theorem hash1_hash2_match_spec_recurrence :
    ∀ (capacity : Nat) (key : List Nat),
      hash1 capacity key = specHashValue capacity key ∧
      hash2 key capacity = specHashValue capacity key := by
  intro capacity key
  constructor
  · exact foldl_hash_eq_specGo capacity key 0 31417
  · exact foldl_hash_eq_specGo capacity key 0 31417

/-! ## Growth (rehash) behaviour of the two-level table (claims C1, C2) -/

/-- Seven set operations on distinct (key1, key2) pairs (key1 character codes
97, 126, 65, 0, 1, 2, 3, all with key2 `[5]`): the third insert drives the
outer table from capacity 5 to 13 and the seventh from 13 to 29, so two full
outer rehash cycles occur.  At capacity 29 the keys `[97]` and `[126]`
collide (`97 % 29 = 126 % 29 = 10`). -/
def c1Ops : List ((List Nat × List Nat) × Nat) :=
  [(([97], [5]), 0), (([126], [5]), 1), (([65], [5]), 2),
   (([0], [5]), 3), (([1], [5]), 4), (([2], [5]), 5), (([3], [5]), 6)]

/-- C1 (the code violates the claim): the sequence `c1Ops` of set operations
on distinct (key1, key2) pairs forces two outer rehash cycles
(`size_index = 2`), yet the pair `(key1 = [97], key2 = [5], value = 0)` —
retrievable right after its insertion, as the second conjunct shows — is no
longer retrievable afterwards: `_rehash` writes each (key1, sub-table) pair
directly at `hash1(key1)` without probing, so at capacity 29 the entry for
`[126]` overwrites the entry for `[97]` and `get` raises the not-found
error. -/
theorem dkt_two_rehash_cycles_lose_pair :
    (runSets dktNew c1Ops).map
        (fun t => (t.sizeIndex, t.getItem [97] [5], t.getItem [126] [5])) =
      some (2, none, some 1) ∧
    (runSets dktNew (c1Ops.take 1)).map (fun t => t.getItem [97] [5]) =
      some (some 0) := by
  constructor
  · rfl
  · rfl

/-- Three set operations on distinct key1 groups (codes 97, 110, 65): the
third insert triggers an outer rehash to capacity 13, where `[97]` and
`[110]` collide (`97 % 13 = 110 % 13 = 6`). -/
def c2Ops : List ((List Nat × List Nat) × Nat) :=
  [(([97], [5]), 0), (([110], [5]), 1), (([65], [5]), 2)]

/-- C2 (the code violates the claim): after the set sequence `c2Ops`, `len()`
(the maintained `count`) is 3, while only 2 distinct key1 groups still hold a
key2 entry — the rehash collision overwrote the `[110]` group but `_rehash`
still counted both reinsertions, so `len()` does not equal the number of
distinct key1 groups with at least one key2 entry. -/
theorem dkt_len_differs_from_group_count :
    (runSets dktNew c2Ops).map (fun t => (t.count, dktGroupCount t)) =
      some (3, 2) := by
  rfl

/-! ## Recursive trie hash table (`infinite_hash_table.py`) -/

/-- `InfiniteHashTable.TABLE_SIZE`. -/
def IHT_TABLE_SIZE : Nat := 27

mutual
/-- One slot content of an `InfiniteHashTable` array: a (key, value) leaf pair
or a nested table. -/
inductive IHTEntry : Type where
  | leaf (key : List Nat) (value : Nat) : IHTEntry
  | sub (t : IHT) : IHTEntry
/-- `InfiniteHashTable`: `level`, the maintained `count`, and the slot
array (length `TABLE_SIZE = 27` for every table the source builds). -/
inductive IHT : Type where
  | mk (level : Nat) (count : Int) (arr : List (Option IHTEntry)) : IHT
end

/-- `InfiniteHashTable.hash`: the character code at position `level` modulo
`TABLE_SIZE - 1` when the key is long enough, else the overflow index
`TABLE_SIZE - 1`. -/
def ihash (level : Nat) (key : List Nat) : Nat :=
  if level < key.length then key.getD level 0 % (IHT_TABLE_SIZE - 1)
  else IHT_TABLE_SIZE - 1

/-- The `level` field. -/
def IHT.levelOf : IHT → Nat
  | .mk l _ _ => l

/-- The `count` field (`len()`). -/
def IHT.countOf : IHT → Int
  | .mk _ c _ => c

/-- The slot array. -/
def IHT.arrOf : IHT → List (Option IHTEntry)
  | .mk _ _ a => a

/-- `InfiniteHashTable.__init__(level)`: 27 empty slots, count 0. -/
def emptyIHT (level : Nat) : IHT :=
  .mk level 0 (List.replicate IHT_TABLE_SIZE none)

/-- A table holding exactly one leaf, at the slot its key hashes to. -/
def singletonIHT (level : Nat) (key : List Nat) (value : Nat) : IHT :=
  .mk level 1
    ((List.replicate IHT_TABLE_SIZE (none : Option IHTEntry)).set
      (ihash level key) (some (.leaf key value)))

theorem sizeOf_sub_lt {arr : List (Option IHTEntry)} {i : Nat} {u : IHT}
    (h : arr.get? i = some (some (.sub u))) : sizeOf u < sizeOf arr := by
  have h2 := List.sizeOf_lt_of_mem (List.get?_mem h)
  simp at h2
  omega

/-- `InfiniteHashTable.__getitem__`: recurse through nested tables along the
hash path; a leaf yields its value exactly on key equality; otherwise the
not-found error (`none`). -/
def IHT.getItem : IHT → List Nat → Option Nat
  | .mk level _ arr, key =>
    match h : arr.get? (ihash level key) with
    | some (some (.sub u)) => u.getItem key
    | some (some (.leaf k v)) => if k = key then some v else none
    | _ => none
termination_by t _ => sizeOf t
decreasing_by
  have := sizeOf_sub_lt h
  simp
  omega

/-- `InfiniteHashTable.__contains__`: lookup, catching the not-found error. -/
def IHT.containsKey (t : IHT) (key : List Nat) : Bool :=
  (t.getItem key).isSome

mutual
/-- `InfiniteHashTable.items()`: every leaf pair of the subtree, in slot
order, nested tables flattened in place. -/
def IHT.items : IHT → List (List Nat × Nat)
  | .mk _ _ arr => itemsSlots arr
/-- Leaf pairs of a slot list, in order. -/
def itemsSlots : List (Option IHTEntry) → List (List Nat × Nat)
  | [] => []
  | none :: rest => itemsSlots rest
  | some (.leaf k v) :: rest => (k, v) :: itemsSlots rest
  | some (.sub u) :: rest => u.items ++ itemsSlots rest
end

/-- Keys of every leaf of the subtree, in `items` order. -/
def IHT.keysOf (t : IHT) : List (List Nat) := t.items.map Prod.fst

/-- `InfiniteHashTable.__setitem__`, with a `fuel` bound on the recursion
depth (the source recursion is not structurally bounded: colliding keys spawn
fresh deeper tables).  `none` means the fuel ran out, i.e. the source would
still be recursing.  Cases follow the source: empty slot places a leaf and
bumps count; a nested table recurses, bumping count only if the key was
absent (`key in item` pre-check); an equal-key leaf is overwritten in place;
a different-key leaf is displaced into a fresh table at `level + 1` that
receives the dislodged pair and then the new pair, with count bumped once. -/
def IHT.setItem : Nat → IHT → List Nat → Nat → Option IHT
  | 0, _, _, _ => none
  | fuel + 1, .mk level count arr, key, value =>
    match arr.get? (ihash level key) with
    | some none =>
        some (.mk level (count + 1)
          (arr.set (ihash level key) (some (.leaf key value))))
    | some (some (.sub u)) =>
      if (u.getItem key).isSome then
        (IHT.setItem fuel u key value).map
          (fun u2 => .mk level count (arr.set (ihash level key) (some (.sub u2))))
      else
        (IHT.setItem fuel u key value).map
          (fun u2 => .mk level (count + 1) (arr.set (ihash level key) (some (.sub u2))))
    | some (some (.leaf k0 v0)) =>
      if k0 = key then
        some (.mk level count (arr.set (ihash level key) (some (.leaf key value))))
      else
        match IHT.setItem fuel (emptyIHT (level + 1)) k0 v0 with
        | none => none
        | some nt1 =>
          match IHT.setItem fuel nt1 key value with
          | none => none
          | some nt2 =>
              some (.mk level (count + 1)
                (arr.set (ihash level key) (some (.sub nt2))))
    | none => none

/-- `InfiniteHashTable.__delitem__` as a state transformer: the resulting
table object paired with `true` on success and `false` when the not-found
error is raised (every mutation performed before the raise is kept, matching
the in-place source).  An empty or mismatched-leaf slot raises; a matching
leaf is cleared with count decremented; a nested table recurses, the count
drops by however many leaves the recursive delete removed, and the nested
table is cleared when empty or replaced by its last remaining `items()` pair
when its count is exactly 1. -/
def IHT.delItemRun : IHT → List Nat → IHT × Bool
  | .mk level count arr, key =>
    match h : arr.get? (ihash level key) with
    | some (some (.sub u)) =>
      match u.delItemRun key with
      | (u2, true) =>
        let count2 := count - (u.countOf - u2.countOf)
        if u2.countOf = 0 then
          (.mk level count2 (arr.set (ihash level key) none), true)
        else if u2.countOf = 1 then
          match u2.items.getLast? with
          | some (rk, rv) =>
              (.mk level count2 (arr.set (ihash level key) (some (.leaf rk rv))), true)
          | none =>
              (.mk level count2 (arr.set (ihash level key) (some (.sub u2))), true)
        else (.mk level count2 (arr.set (ihash level key) (some (.sub u2))), true)
      | (u2, false) =>
          (.mk level count (arr.set (ihash level key) (some (.sub u2))), false)
    | some (some (.leaf k _)) =>
      if k = key then (.mk level (count - 1) (arr.set (ihash level key) none), true)
      else (.mk level count arr, false)
    | _ => (.mk level count arr, false)
termination_by t _ => sizeOf t
decreasing_by
  have := sizeOf_sub_lt h
  simp
  omega

mutual
/-- Hash-placement invariant of a trie table: every leaf sits at the slot its
key hashes to for the node's level, and every nested table is at the next
level with all of its keys hashing to its slot.  (This is the well-formedness
that every table built by the source's insertions enjoys.) -/
def IHT.HPb : IHT → Bool
  | .mk level _ arr => slotsOK level arr 0
/-- Check the slots of a node at `level` starting from absolute index `i`. -/
def slotsOK (level : Nat) : List (Option IHTEntry) → Nat → Bool
  | [], _ => true
  | s :: rest, i => slotOK1 level i s && slotsOK level rest (i + 1)
/-- Check one slot at absolute index `i` of a node at `level`. -/
def slotOK1 (level i : Nat) : Option IHTEntry → Bool
  | none => true
  | some (.leaf k _) => ihash level k == i
  | some (.sub u) =>
      (u.levelOf == level + 1) && IHT.HPb u &&
        u.keysOf.all (fun k => ihash level k == i)
end

/-- Insertion of the two keys, one after the other, into a fresh table
terminates (has enough fuel for the source recursion to finish). -/
def InsertPairTerminates (k1 k2 : List Nat) : Prop :=
  ∃ (fuel : Nat) (t1 t2 : IHT),
    IHT.setItem fuel (emptyIHT 0) k1 0 = some t1 ∧
    IHT.setItem fuel t1 k2 0 = some t2

/-! ## Termination of trie insertion (claim C3) -/

theorem ihash_lt (level : Nat) (key : List Nat) : ihash level key < IHT_TABLE_SIZE := by
  unfold ihash
  split
  · have : key.getD level 0 % (IHT_TABLE_SIZE - 1) < IHT_TABLE_SIZE - 1 :=
      Nat.mod_lt _ (by decide)
    omega
  · decide

theorem replicate_get?_lt {α : Type} (n i : Nat) (a : α) (h : i < n) :
    (List.replicate n a).get? i = some a := by
  simp [List.get?_eq_getElem?, List.getElem?_replicate, h]

theorem set_replicate_get_same {α : Type} (n i : Nat) (a : Option α) (h : i < n) :
    ((List.replicate n (none : Option α)).set i a).get? i = some a := by
  rw [List.get?_set_eq]
  rw [replicate_get?_lt _ _ _ h]
  rfl

theorem set_replicate_get_other {α : Type} (n i j : Nat) (a : Option α)
    (h : j < n) (hne : j ≠ i) :
    ((List.replicate n (none : Option α)).set i a).get? j = some none := by
  rw [List.get?_set_ne _ _ (fun e => hne e.symm)]
  exact replicate_get?_lt _ _ _ h

/-- Inserting into a fresh empty table always succeeds in one step and yields
the singleton table. -/
theorem setItem_emptyIHT (fuel level : Nat) (key : List Nat) (value : Nat) :
    IHT.setItem (fuel + 1) (emptyIHT level) key value =
      some (singletonIHT level key value) := by
  show IHT.setItem (fuel + 1) (.mk level 0 (List.replicate IHT_TABLE_SIZE none)) key value = _
  rw [IHT.setItem]
  rw [replicate_get?_lt _ _ _ (ihash_lt level key)]
  rfl

/-- The keys `[97]` and `[123]` (characters `a` and `{`, equal modulo 26)
collide at every level: both hash to 19 at level 0 and to the overflow slot
26 at every deeper level. -/
theorem ihash_97_123 (level : Nat) : ihash level [97] = ihash level [123] := by
  unfold ihash
  rcases Nat.lt_or_ge level 1 with h | h
  · interval_cases level
    decide
  · have h1 : ¬ level < ([97] : List Nat).length := by simp; omega
    have h2 : ¬ level < ([123] : List Nat).length := by simp; omega
    rw [if_neg h1, if_neg h2]

/-- Inserting `[123]` into a table at any level holding only the leaf `[97]`
never finishes, whatever the fuel: the two keys collide at every level, so
the source code would nest fresh tables forever. -/
theorem setItem_97_123_none :
    ∀ (fuel level : Nat) (w v : Nat),
      IHT.setItem fuel (singletonIHT level [97] w) [123] v = none := by
  intro fuel
  induction fuel with
  | zero => intro level w v; rfl
  | succ f ih =>
      intro level w v
      show IHT.setItem (f + 1) (.mk level 1 _) [123] v = none
      rw [IHT.setItem]
      rw [← ihash_97_123 level,
        set_replicate_get_same _ _ _ (ihash_lt level [97])]
      show (if ([97] : List Nat) = [123] then _ else _) = none
      rw [if_neg (by decide : ¬ ([97] : List Nat) = [123])]
      match f, ih with
      | 0, _ => rfl
      | f' + 1, ih =>
          rw [setItem_emptyIHT f' (level + 1) [97] w]
          simp only [ih]

/-- C3 counterexample: the distinct single-character keys `[97]` and `[123]`
(`a` and `{`) make insertion of the second key recurse forever, so insertion
into the Recursive Trie Hash Table does not terminate for every pair of
distinct finite-length keys. -/
theorem iht_insert_pair_not_terminating :
    ([97] : List Nat) ≠ [123] ∧ ¬ InsertPairTerminates [97] [123] := by
  refine ⟨by decide, ?_⟩
  rintro ⟨fuel, t1, t2, h1, h2⟩
  match fuel, h1, h2 with
  | f + 1, h1, h2 =>
      rw [setItem_emptyIHT f 0 [97] 0] at h1
      rw [← Option.some_inj.mp h1] at h2
      rw [setItem_97_123_none (f + 1) 0 0 0] at h2
      exact Option.noConfusion h2

/-- If the hashes of two keys differ at level `L + n`, then inserting the
second key into a level-`L` table holding only the first succeeds with fuel
`n + 1`. -/
theorem setItem_into_singleton_succeeds :
    ∀ (n L : Nat) (k1 k2 : List Nat) (v1 v2 : Nat),
      ihash (L + n) k1 ≠ ihash (L + n) k2 →
      (IHT.setItem (n + 1) (singletonIHT L k1 v1) k2 v2).isSome = true := by
  intro n
  induction n with
  | zero =>
      intro L k1 k2 v1 v2 h
      rw [Nat.add_zero] at h
      show (IHT.setItem 1 (.mk L 1 _) k2 v2).isSome = true
      rw [IHT.setItem]
      rw [set_replicate_get_other _ _ _ _ (ihash_lt L k2) (fun e => h e.symm)]
      rfl
  | succ n ih =>
      intro L k1 k2 v1 v2 h
      by_cases heq : ihash L k2 = ihash L k1
      · by_cases hk : k1 = k2
        · subst hk
          show (IHT.setItem (n + 1 + 1) (.mk L 1 _) k1 v2).isSome = true
          rw [IHT.setItem]
          rw [heq, set_replicate_get_same _ _ _ (ihash_lt L k1)]
          show (if k1 = k1 then _ else _ : Option IHT).isSome = true
          rw [if_pos rfl]
          rfl
        · have h' : ihash ((L + 1) + n) k1 ≠ ihash ((L + 1) + n) k2 := by
            have e : (L + 1) + n = L + (n + 1) := by omega
            rw [e]
            exact h
          have hs := ih (L + 1) k1 k2 v1 v2 h'
          obtain ⟨t2, ht2⟩ := Option.isSome_iff_exists.mp hs
          show (IHT.setItem (n + 1 + 1) (.mk L 1 _) k2 v2).isSome = true
          rw [IHT.setItem]
          rw [heq, set_replicate_get_same _ _ _ (ihash_lt L k1)]
          show ((if k1 = k2 then _ else _ : Option IHT)).isSome = true
          rw [if_neg hk]
          rw [setItem_emptyIHT n (L + 1) k1 v1]
          simp only [ht2]
          rfl
      · show (IHT.setItem (n + 1 + 1) (.mk L 1 _) k2 v2).isSome = true
        rw [IHT.setItem]
        rw [set_replicate_get_other _ _ _ _ (ihash_lt L k2) heq]
        rfl

/-- C3 (amended): at level `L` the trie hash routes by the character code at
position `L` modulo 26 when `L < length(key)` and to the fixed overflow index
26 otherwise; and insertion of a pair of keys that the hash can eventually
separate — keys of different lengths, or differing at some common position
modulo 26 — terminates, with fuel (nesting) bounded by the shorter key's
length plus two.  (For distinct keys of equal length whose codes agree
pointwise modulo 26 the insertion recursion never terminates, see the
counterexample.) -/
theorem iht_insert_terminates_when_hash_separates (k1 k2 : List Nat) (v1 v2 : Nat)
    (h : k1.length ≠ k2.length ∨
         ∃ i, i < k1.length ∧ i < k2.length ∧ k1.getD i 0 % 26 ≠ k2.getD i 0 % 26) :
    (∀ (L : Nat) (key : List Nat),
        ihash L key = if L < key.length then key.getD L 0 % 26 else 26) ∧
    ∃ (fuel : Nat) (t1 t2 : IHT), fuel ≤ min k1.length k2.length + 2 ∧
      IHT.setItem fuel (emptyIHT 0) k1 v1 = some t1 ∧
      IHT.setItem fuel t1 k2 v2 = some t2 := by
  constructor
  · intro L key
    rfl
  · have sep : ∃ D, D ≤ min k1.length k2.length ∧ ihash D k1 ≠ ihash D k2 := by
      rcases h with hlen | ⟨i, hi1, hi2, hne⟩
      · rcases Nat.lt_or_ge k1.length k2.length with hl | hl
        · refine ⟨k1.length, by omega, ?_⟩
          unfold ihash
          rw [if_neg (by omega), if_pos hl]
          have : k2.getD k1.length 0 % (IHT_TABLE_SIZE - 1) < IHT_TABLE_SIZE - 1 :=
            Nat.mod_lt _ (by decide)
          intro e
          rw [← e] at this
          exact absurd this (by decide)
        · have hl2 : k2.length < k1.length := by omega
          refine ⟨k2.length, by omega, ?_⟩
          unfold ihash
          rw [if_pos hl2, if_neg (by omega)]
          have : k1.getD k2.length 0 % (IHT_TABLE_SIZE - 1) < IHT_TABLE_SIZE - 1 :=
            Nat.mod_lt _ (by decide)
          intro e
          rw [e] at this
          exact absurd this (by decide)
      · refine ⟨i, by omega, ?_⟩
        unfold ihash
        rw [if_pos hi1, if_pos hi2]
        exact hne
    obtain ⟨D, hD, hne⟩ := sep
    have hz : ihash (0 + D) k1 ≠ ihash (0 + D) k2 := by
      rw [Nat.zero_add]
      exact hne
    have hs := setItem_into_singleton_succeeds D 0 k1 k2 v1 v2 hz
    obtain ⟨t2, ht2⟩ := Option.isSome_iff_exists.mp hs
    exact ⟨D + 1, singletonIHT 0 k1 v1, t2, by omega,
      setItem_emptyIHT D 0 k1 v1, ht2⟩

/-- Witness for C3 at the concrete shared-prefix keys `[104, 105]` (`hi`) and
`[104]` (`h`), which differ in length. -/
theorem iht_insert_terminates_witness :
    (∀ (L : Nat) (key : List Nat),
        ihash L key = if L < key.length then key.getD L 0 % 26 else 26) ∧
    ∃ (fuel : Nat) (t1 t2 : IHT),
      fuel ≤ min ([104, 105] : List Nat).length ([104] : List Nat).length + 2 ∧
      IHT.setItem fuel (emptyIHT 0) [104, 105] 1 = some t1 ∧
      IHT.setItem fuel t1 [104] 2 = some t2 :=
  iht_insert_terminates_when_hash_separates [104, 105] [104] 1 2 (Or.inl (by decide))

/-! ## Structural lemmas about the trie table -/

theorem get?_some_lt {α : Type} {l : List α} {n : Nat} {a : α}
    (h : l.get? n = some a) : n < l.length := by
  by_contra hn
  rw [List.get?_eq_none.mpr (by omega)] at h
  exact Option.noConfusion h

theorem getLast?_mem {α : Type} {l : List α} {a : α}
    (h : l.getLast? = some a) : a ∈ l := by
  obtain ⟨hne, he⟩ := List.mem_getLast?_eq_getLast (show a ∈ l.getLast? by rw [h]; rfl)
  rw [he]
  exact List.getLast_mem hne

/-- Leaf pairs contributed by one slot entry. -/
def entryItems : IHTEntry → List (List Nat × Nat)
  | .leaf k v => [(k, v)]
  | .sub u => u.items

theorem items_mk (level : Nat) (c : Int) (arr : List (Option IHTEntry)) :
    (IHT.mk level c arr).items = itemsSlots arr := by
  rw [IHT.items]

theorem mem_itemsSlots {p : List Nat × Nat} :
    ∀ {arr : List (Option IHTEntry)},
      p ∈ itemsSlots arr ↔ ∃ j e, arr.get? j = some (some e) ∧ p ∈ entryItems e := by
  intro arr
  induction arr with
  | nil =>
      constructor
      · intro h
        exact absurd h (List.not_mem_nil p)
      · rintro ⟨j, e, hj, _⟩
        rw [List.get?_eq_none.mpr (by simp)] at hj
        exact Option.noConfusion hj
  | cons s rest ih =>
      have shift : (∃ j e, rest.get? j = some (some e) ∧ p ∈ entryItems e) →
          ∃ j e, (s :: rest).get? j = some (some e) ∧ p ∈ entryItems e := by
        rintro ⟨j, e, hj, hp⟩
        exact ⟨j + 1, e, hj, hp⟩
      match s with
      | none =>
          rw [itemsSlots]
          rw [ih]
          constructor
          · exact shift
          · rintro ⟨j, e, hj, hp⟩
            match j, hj with
            | j + 1, hj => exact ⟨j, e, hj, hp⟩
      | some (.leaf k v) =>
          rw [itemsSlots]
          constructor
          · intro h
            rcases List.mem_cons.mp h with h | h
            · exact ⟨0, .leaf k v, rfl, by rw [h]; exact List.mem_singleton_self _⟩
            · exact shift (ih.mp h)
          · rintro ⟨j, e, hj, hp⟩
            match j, hj with
            | 0, hj =>
                rw [← Option.some_inj.mp (Option.some_inj.mp hj)] at hp
                rcases List.mem_singleton.mp hp with h
                exact List.mem_cons.mpr (Or.inl h)
            | j + 1, hj => exact List.mem_cons.mpr (Or.inr (ih.mpr ⟨j, e, hj, hp⟩))
      | some (.sub u) =>
          rw [itemsSlots]
          constructor
          · intro h
            rcases List.mem_append.mp h with h | h
            · exact ⟨0, .sub u, rfl, h⟩
            · exact shift (ih.mp h)
          · rintro ⟨j, e, hj, hp⟩
            match j, hj with
            | 0, hj =>
                rw [← Option.some_inj.mp (Option.some_inj.mp hj)] at hp
                exact List.mem_append.mpr (Or.inl hp)
            | j + 1, hj => exact List.mem_append.mpr (Or.inr (ih.mpr ⟨j, e, hj, hp⟩))

theorem mem_keysOf {k : List Nat} {level : Nat} {c : Int}
    {arr : List (Option IHTEntry)} :
    k ∈ (IHT.mk level c arr).keysOf ↔
      ∃ j e v, arr.get? j = some (some e) ∧ (k, v) ∈ entryItems e := by
  rw [IHT.keysOf, items_mk]
  constructor
  · intro h
    obtain ⟨⟨k', v⟩, hmem, he⟩ := List.mem_map.mp h
    obtain ⟨j, e, hj, hp⟩ := mem_itemsSlots.mp hmem
    cases he
    exact ⟨j, e, v, hj, hp⟩
  · rintro ⟨j, e, v, hj, hp⟩
    exact List.mem_map.mpr ⟨(k, v), mem_itemsSlots.mpr ⟨j, e, hj, hp⟩, rfl⟩

theorem slotsOK_get (level : Nat) :
    ∀ (arr : List (Option IHTEntry)) (base j : Nat) (e : IHTEntry),
      slotsOK level arr base = true → arr.get? j = some (some e) →
      slotOK1 level (base + j) (some e) = true := by
  intro arr
  induction arr with
  | nil =>
      intro base j e _ hj
      rw [List.get?_eq_none.mpr (by simp)] at hj
      exact Option.noConfusion hj
  | cons s rest ih =>
      intro base j e hok hj
      rw [slotsOK, Bool.and_eq_true] at hok
      match j, hj with
      | 0, hj =>
          rw [Option.some_inj.mp hj] at hok
          exact hok.1
      | j + 1, hj =>
          have := ih (base + 1) j e hok.2 hj
          have harith : base + 1 + j = base + (j + 1) := by omega
          rw [harith] at this
          exact this

/-- The slot facts packed in the hash-placement invariant, read off at an
index. -/
theorem HPb_get {level : Nat} {c : Int} {arr : List (Option IHTEntry)}
    {j : Nat} {e : IHTEntry}
    (h : IHT.HPb (.mk level c arr) = true) (hj : arr.get? j = some (some e)) :
    slotOK1 level j (some e) = true := by
  rw [IHT.HPb] at h
  have := slotsOK_get level arr 0 j e h hj
  rw [Nat.zero_add] at this
  exact this

theorem slotOK1_leaf {level j : Nat} {k : List Nat} {v : Nat}
    (h : slotOK1 level j (some (.leaf k v)) = true) : ihash level k = j := by
  have h' := h
  rw [slotOK1.eq_def] at h'
  simp at h'
  exact h'

theorem slotOK1_sub {level j : Nat} {u : IHT}
    (h : slotOK1 level j (some (.sub u)) = true) :
    u.levelOf = level + 1 ∧ IHT.HPb u = true ∧
      ∀ k ∈ u.keysOf, ihash level k = j := by
  have h' := h
  rw [slotOK1.eq_def] at h'
  simp only [Bool.and_eq_true, beq_iff_eq, List.all_eq_true] at h'
  exact ⟨h'.1.1, h'.1.2, h'.2⟩

theorem getItem_slot_sub {level : Nat} {c : Int} {arr : List (Option IHTEntry)}
    {key : List Nat} {u : IHT}
    (hslot : arr.get? (ihash level key) = some (some (.sub u))) :
    (IHT.mk level c arr).getItem key = u.getItem key := by
  rw [IHT.getItem]
  split
  next u1 heq =>
    rw [hslot] at heq
    simp only [Option.some_inj, IHTEntry.sub.injEq] at heq
    rw [heq]
  next k v heq =>
    rw [hslot] at heq
    exact absurd heq (by simp)
  next hsub hleaf =>
    exact absurd hslot (hsub u)

theorem getItem_slot_leaf {level : Nat} {c : Int} {arr : List (Option IHTEntry)}
    {key k : List Nat} {v : Nat}
    (hslot : arr.get? (ihash level key) = some (some (.leaf k v))) :
    (IHT.mk level c arr).getItem key = if k = key then some v else none := by
  rw [IHT.getItem]
  split
  next u1 heq =>
    rw [hslot] at heq
    exact absurd heq (by simp)
  next k1 v1 heq =>
    rw [hslot] at heq
    simp only [Option.some_inj, IHTEntry.leaf.injEq] at heq
    rw [heq.1, heq.2]
  next hsub hleaf =>
    exact absurd hslot (hleaf k v)

theorem getItem_slot_none {level : Nat} {c : Int} {arr : List (Option IHTEntry)}
    {key : List Nat}
    (hslot : arr.get? (ihash level key) = some none ∨
      arr.get? (ihash level key) = none) :
    (IHT.mk level c arr).getItem key = none := by
  rw [IHT.getItem]
  split
  next u1 heq =>
    rcases hslot with h | h <;> rw [h] at heq <;> exact absurd heq (by simp)
  next k v heq =>
    rcases hslot with h | h <;> rw [h] at heq <;> exact absurd heq (by simp)
  next hsub hleaf => rfl

theorem list_set_same {α : Type} :
    ∀ {l : List α} {i : Nat} {a : α}, l.get? i = some a → l.set i a = l := by
  intro l
  induction l with
  | nil => intro i a h; exact Option.noConfusion h
  | cons x xs ih =>
      intro i a h
      match i, h with
      | 0, h =>
          rw [List.set_cons_zero]
          rw [Option.some_inj.mp h]
      | i + 1, h =>
          rw [List.set_cons_succ]
          rw [ih h]

theorem delItemRun_slot_none {level : Nat} {c : Int} {arr : List (Option IHTEntry)}
    {key : List Nat}
    (hslot : arr.get? (ihash level key) = some none ∨
      arr.get? (ihash level key) = none) :
    (IHT.mk level c arr).delItemRun key = (.mk level c arr, false) := by
  rw [IHT.delItemRun]
  split
  next u1 heq =>
    rcases hslot with h | h <;> rw [h] at heq <;> exact absurd heq (by simp)
  next k v heq =>
    rcases hslot with h | h <;> rw [h] at heq <;> exact absurd heq (by simp)
  next hsub hleaf => rfl

theorem delItemRun_leaf_match {level : Nat} {c : Int} {arr : List (Option IHTEntry)}
    {key : List Nat} {v : Nat}
    (hslot : arr.get? (ihash level key) = some (some (.leaf key v))) :
    (IHT.mk level c arr).delItemRun key =
      (.mk level (c - 1) (arr.set (ihash level key) none), true) := by
  rw [IHT.delItemRun]
  split
  next u1 heq =>
    rw [hslot] at heq
    exact absurd heq (by simp)
  next k1 v1 heq =>
    rw [hslot] at heq
    simp only [Option.some_inj, IHTEntry.leaf.injEq] at heq
    rw [if_pos heq.1.symm]
  next hsub hleaf =>
    exact absurd hslot (hleaf key v)

theorem delItemRun_leaf_miss {level : Nat} {c : Int} {arr : List (Option IHTEntry)}
    {key k : List Nat} {v : Nat}
    (hslot : arr.get? (ihash level key) = some (some (.leaf k v)))
    (hk : k ≠ key) :
    (IHT.mk level c arr).delItemRun key = (.mk level c arr, false) := by
  rw [IHT.delItemRun]
  split
  next u1 heq =>
    rw [hslot] at heq
    exact absurd heq (by simp)
  next k1 v1 heq =>
    rw [hslot] at heq
    simp only [Option.some_inj, IHTEntry.leaf.injEq] at heq
    rw [if_neg (by rw [← heq.1]; exact hk)]
  next hsub hleaf =>
    exact absurd hslot (hleaf k v)

theorem delItemRun_sub_err {level : Nat} {c : Int} {arr : List (Option IHTEntry)}
    {key : List Nat} {u u2 : IHT}
    (hslot : arr.get? (ihash level key) = some (some (.sub u)))
    (hdel : u.delItemRun key = (u2, false)) :
    (IHT.mk level c arr).delItemRun key =
      (.mk level c (arr.set (ihash level key) (some (.sub u2))), false) := by
  rw [IHT.delItemRun]
  split
  next u1 heq =>
    rw [hslot] at heq
    simp only [Option.some_inj, IHTEntry.sub.injEq] at heq
    subst heq
    rw [hdel]
  next k1 v1 heq =>
    rw [hslot] at heq
    exact absurd heq (by simp)
  next hsub hleaf =>
    exact absurd hslot (hsub u)

theorem delItemRun_sub_zero {level : Nat} {c : Int} {arr : List (Option IHTEntry)}
    {key : List Nat} {u u2 : IHT}
    (hslot : arr.get? (ihash level key) = some (some (.sub u)))
    (hdel : u.delItemRun key = (u2, true))
    (h0 : u2.countOf = 0) :
    (IHT.mk level c arr).delItemRun key =
      (.mk level (c - (u.countOf - u2.countOf)) (arr.set (ihash level key) none), true) := by
  rw [IHT.delItemRun]
  split
  next u1 heq =>
    rw [hslot] at heq
    simp only [Option.some_inj, IHTEntry.sub.injEq] at heq
    subst heq
    rw [hdel]
    show (if u2.countOf = 0 then _ else _) = _
    rw [if_pos h0]
  next k1 v1 heq =>
    rw [hslot] at heq
    exact absurd heq (by simp)
  next hsub hleaf =>
    exact absurd hslot (hsub u)

theorem delItemRun_sub_collapse {level : Nat} {c : Int} {arr : List (Option IHTEntry)}
    {key rk : List Nat} {rv : Nat} {u u2 : IHT}
    (hslot : arr.get? (ihash level key) = some (some (.sub u)))
    (hdel : u.delItemRun key = (u2, true))
    (h1 : u2.countOf = 1)
    (hlast : u2.items.getLast? = some (rk, rv)) :
    (IHT.mk level c arr).delItemRun key =
      (.mk level (c - (u.countOf - u2.countOf))
        (arr.set (ihash level key) (some (.leaf rk rv))), true) := by
  rw [IHT.delItemRun]
  split
  next u1 heq =>
    rw [hslot] at heq
    simp only [Option.some_inj, IHTEntry.sub.injEq] at heq
    subst heq
    rw [hdel]
    show (if u2.countOf = 0 then _ else _) = _
    rw [if_neg (by rw [h1]; decide), if_pos h1]
    rw [hlast]
  next k1 v1 heq =>
    rw [hslot] at heq
    exact absurd heq (by simp)
  next hsub hleaf =>
    exact absurd hslot (hsub u)

theorem delItemRun_sub_one_nolast {level : Nat} {c : Int} {arr : List (Option IHTEntry)}
    {key : List Nat} {u u2 : IHT}
    (hslot : arr.get? (ihash level key) = some (some (.sub u)))
    (hdel : u.delItemRun key = (u2, true))
    (h1 : u2.countOf = 1)
    (hlast : u2.items.getLast? = none) :
    (IHT.mk level c arr).delItemRun key =
      (.mk level (c - (u.countOf - u2.countOf))
        (arr.set (ihash level key) (some (.sub u2))), true) := by
  rw [IHT.delItemRun]
  split
  next u1 heq =>
    rw [hslot] at heq
    simp only [Option.some_inj, IHTEntry.sub.injEq] at heq
    subst heq
    rw [hdel]
    show (if u2.countOf = 0 then _ else _) = _
    rw [if_neg (by rw [h1]; decide), if_pos h1]
    rw [hlast]
  next k1 v1 heq =>
    rw [hslot] at heq
    exact absurd heq (by simp)
  next hsub hleaf =>
    exact absurd hslot (hsub u)

theorem delItemRun_sub_many {level : Nat} {c : Int} {arr : List (Option IHTEntry)}
    {key : List Nat} {u u2 : IHT}
    (hslot : arr.get? (ihash level key) = some (some (.sub u)))
    (hdel : u.delItemRun key = (u2, true))
    (h0 : u2.countOf ≠ 0) (h1 : u2.countOf ≠ 1) :
    (IHT.mk level c arr).delItemRun key =
      (.mk level (c - (u.countOf - u2.countOf))
        (arr.set (ihash level key) (some (.sub u2))), true) := by
  rw [IHT.delItemRun]
  split
  next u1 heq =>
    rw [hslot] at heq
    simp only [Option.some_inj, IHTEntry.sub.injEq] at heq
    subst heq
    rw [hdel]
    show (if u2.countOf = 0 then _ else _) = _
    rw [if_neg h0, if_neg h1]
  next k1 v1 heq =>
    rw [hslot] at heq
    exact absurd heq (by simp)
  next hsub hleaf =>
    exact absurd hslot (hsub u)

theorem key_notin_keysOf_set {level : Nat} {c c2 : Int}
    {arr : List (Option IHTEntry)} {key : List Nat}
    (hhp : IHT.HPb (.mk level c arr) = true)
    {s : Option IHTEntry}
    (hs : ∀ e, s = some e → ∀ v : Nat, (key, v) ∉ entryItems e) :
    key ∉ (IHT.mk level c2 (arr.set (ihash level key) s)).keysOf := by
  intro hmem
  obtain ⟨j, e, v, hj, hp⟩ := mem_keysOf.mp hmem
  by_cases hjp : j = ihash level key
  · subst hjp
    rw [List.get?_set_eq] at hj
    cases harr : arr.get? (ihash level key) with
    | none => rw [harr] at hj; exact absurd hj (by simp)
    | some s0 =>
        rw [harr] at hj
        simp at hj
        exact hs e hj v hp
  · rw [List.get?_set_ne _ _ (fun h => hjp h.symm)] at hj
    have hok := HPb_get hhp hj
    cases e with
    | leaf k' v' =>
        have hk' : k' = key := by
          have := List.mem_singleton.mp hp
          rw [Prod.mk.injEq] at this
          exact this.1.symm
        have hh := slotOK1_leaf hok
        rw [hk'] at hh
        exact hjp hh.symm
    | sub u' =>
        have hkey : key ∈ u'.keysOf := List.mem_map.mpr ⟨(key, v), hp, rfl⟩
        exact hjp ((slotOK1_sub hok).2.2 key hkey).symm

theorem getItem_some_mem :
    ∀ (n : Nat) (t : IHT), sizeOf t ≤ n →
      ∀ (key : List Nat) (v : Nat), t.getItem key = some v → key ∈ t.keysOf := by
  intro n
  induction n with
  | zero =>
      intro t hsize
      obtain ⟨L, c, arr⟩ := t
      have : 0 < sizeOf (IHT.mk L c arr) := by
        simp
      omega
  | succ n ih =>
      intro t hsize key v hget
      obtain ⟨L, c, arr⟩ := t
      cases hslot : arr.get? (ihash L key) with
      | none =>
          rw [getItem_slot_none (Or.inr hslot)] at hget
          exact Option.noConfusion hget
      | some s =>
        cases s with
        | none =>
            rw [getItem_slot_none (Or.inl hslot)] at hget
            exact Option.noConfusion hget
        | some e =>
          cases e with
          | leaf k v0 =>
              rw [getItem_slot_leaf hslot] at hget
              by_cases hk : k = key
              · subst hk
                exact mem_keysOf.mpr ⟨ihash L k, .leaf k v0, v0, hslot,
                  List.mem_singleton_self _⟩
              · rw [if_neg hk] at hget
                exact Option.noConfusion hget
          | sub u =>
              rw [getItem_slot_sub hslot] at hget
              have hu := sizeOf_sub_lt hslot
              have hsz : sizeOf (IHT.mk L c arr) = 1 + sizeOf L + sizeOf c + sizeOf arr := by
                simp
              have hmem := ih u (by omega) key v hget
              obtain ⟨⟨k', w⟩, hw, he⟩ := List.mem_map.mp hmem
              exact mem_keysOf.mpr ⟨ihash L key, .sub u, w, hslot, he ▸ hw⟩

/-- Under the hash-placement invariant, a successful delete removes the key
from the whole subtree. -/
theorem del_ok_key_removed :
    ∀ (n : Nat) (t t2 : IHT), sizeOf t ≤ n → IHT.HPb t = true →
      ∀ key : List Nat, t.delItemRun key = (t2, true) → key ∉ t2.keysOf := by
  intro n
  induction n with
  | zero =>
      intro t t2 hsize
      obtain ⟨L, c, arr⟩ := t
      have : 0 < sizeOf (IHT.mk L c arr) := by
        simp
      omega
  | succ n ih =>
      intro t t2 hsize hhp key hdel
      obtain ⟨L, c, arr⟩ := t
      cases hslot : arr.get? (ihash L key) with
      | none =>
          rw [delItemRun_slot_none (Or.inr hslot)] at hdel
          exact absurd (congrArg Prod.snd hdel) (by simp)
      | some s =>
        cases s with
        | none =>
            rw [delItemRun_slot_none (Or.inl hslot)] at hdel
            exact absurd (congrArg Prod.snd hdel) (by simp)
        | some e =>
          cases e with
          | leaf k v0 =>
              by_cases hk : k = key
              · subst hk
                rw [delItemRun_leaf_match hslot] at hdel
                have ht2 := (congrArg Prod.fst hdel).symm
                simp only at ht2
                rw [ht2]
                exact key_notin_keysOf_set hhp
                  (fun e he v => Option.noConfusion he)
              · rw [delItemRun_leaf_miss hslot hk] at hdel
                exact absurd (congrArg Prod.snd hdel) (by simp)
          | sub u =>
              have hok := HPb_get hhp hslot
              obtain ⟨hlev, hhpu, hall⟩ := slotOK1_sub hok
              have hu := sizeOf_sub_lt hslot
              have hsz : sizeOf (IHT.mk L c arr) = 1 + sizeOf L + sizeOf c + sizeOf arr := by
                simp
              cases hdelu : u.delItemRun key with
              | mk u2 ok =>
                cases ok with
                | false =>
                    rw [delItemRun_sub_err hslot hdelu] at hdel
                    exact absurd (congrArg Prod.snd hdel) (by simp)
                | true =>
                    have hnot2 := ih u u2 (by omega) hhpu key hdelu
                    by_cases h0 : u2.countOf = 0
                    · rw [delItemRun_sub_zero hslot hdelu h0] at hdel
                      have ht2 := (congrArg Prod.fst hdel).symm
                      simp only at ht2
                      rw [ht2]
                      exact key_notin_keysOf_set hhp
                        (fun e he v => Option.noConfusion he)
                    · by_cases h1 : u2.countOf = 1
                      · cases hlast : u2.items.getLast? with
                        | some p =>
                            obtain ⟨rk, rv⟩ := p
                            rw [delItemRun_sub_collapse hslot hdelu h1 hlast] at hdel
                            have ht2 := (congrArg Prod.fst hdel).symm
                            simp only at ht2
                            rw [ht2]
                            refine key_notin_keysOf_set hhp (fun e he v hv => ?_)
                            rw [← Option.some_inj.mp he] at hv
                            have hrkkey : rk = key := by
                              have := List.mem_singleton.mp hv
                              rw [Prod.mk.injEq] at this
                              exact this.1.symm
                            have : rk ∈ u2.keysOf :=
                              List.mem_map.mpr ⟨(rk, rv), getLast?_mem hlast, rfl⟩
                            rw [hrkkey] at this
                            exact hnot2 this
                        | none =>
                            rw [delItemRun_sub_one_nolast hslot hdelu h1 hlast] at hdel
                            have ht2 := (congrArg Prod.fst hdel).symm
                            simp only at ht2
                            rw [ht2]
                            refine key_notin_keysOf_set hhp (fun e he v hv => ?_)
                            rw [← Option.some_inj.mp he] at hv
                            exact hnot2 (List.mem_map.mpr ⟨(key, v), hv, rfl⟩)
                      · rw [delItemRun_sub_many hslot hdelu h0 h1] at hdel
                        have ht2 := (congrArg Prod.fst hdel).symm
                        simp only at ht2
                        rw [ht2]
                        refine key_notin_keysOf_set hhp (fun e he v hv => ?_)
                        rw [← Option.some_inj.mp he] at hv
                        exact hnot2 (List.mem_map.mpr ⟨(key, v), hv, rfl⟩)

/-- C4: in the Recursive Trie Hash Table, whenever a delete leaves a nested
node holding exactly one leaf (`len(item) == 1`, its `items()` being a single
pair), that node is replaced in its parent slot by the leaf itself — the
parent slot never keeps a nested node of size 1. -/
theorem iht_delete_collapses_singleton_node
    (level : Nat) (c : Int) (arr : List (Option IHTEntry)) (key rk : List Nat)
    (rv : Nat) (u u2 : IHT)
    (hslot : arr.get? (ihash level key) = some (some (.sub u)))
    (hdel : u.delItemRun key = (u2, true))
    (hcount : u2.countOf = 1)
    (hitems : u2.items = [(rk, rv)]) :
    (IHT.mk level c arr).delItemRun key =
      (.mk level (c - (u.countOf - u2.countOf))
        (arr.set (ihash level key) (some (.leaf rk rv))), true) :=
  delItemRun_sub_collapse hslot hdel hcount (by rw [hitems]; rfl)

/-- The trie state after inserting the colliding keys `[97,1]` and `[97,2]`
(both hash to 19 at level 0): the nested level-1 node. -/
def c4Sub : IHT :=
  .mk 1 2 (((List.replicate 27 (none : Option IHTEntry)).set 1
    (some (.leaf [97, 1] 11))).set 2 (some (.leaf [97, 2] 22)))

/-- The root after the two colliding inserts. -/
def c4Root : IHT :=
  .mk 0 2 ((List.replicate 27 (none : Option IHTEntry)).set 19 (some (.sub c4Sub)))

/-- The nested node after deleting `[97, 2]` inside it: one leaf left. -/
def c4SubAfter : IHT :=
  .mk 1 (2 - 1) ((((List.replicate 27 (none : Option IHTEntry)).set 1
    (some (.leaf [97, 1] 11))).set 2 (some (.leaf [97, 2] 22))).set 2 none)

/-- Witness for C4: deleting `[97, 2]`, one of the two colliding keys that
forced the nested node, puts the single remaining leaf `([97, 1], 11)` back
into the parent slot 19. -/
theorem iht_delete_collapse_witness :
    c4Root.delItemRun [97, 2] =
      (.mk 0 (2 - (2 - (2 - 1)))
        (((List.replicate 27 (none : Option IHTEntry)).set 19
          (some (.sub c4Sub))).set 19 (some (.leaf [97, 1] 11))), true) :=
  iht_delete_collapses_singleton_node 0 2 _ [97, 2] [97, 1] 11 c4Sub c4SubAfter
    rfl
    (delItemRun_leaf_match rfl)
    rfl
    (by simp [c4SubAfter, IHT.items, itemsSlots])

theorem del_missing_aux :
    ∀ (n : Nat) (t : IHT), sizeOf t ≤ n →
      ∀ key : List Nat, t.getItem key = none → t.delItemRun key = (t, false) := by
  intro n
  induction n with
  | zero =>
      intro t hsize
      obtain ⟨L, c, arr⟩ := t
      have : 0 < sizeOf (IHT.mk L c arr) := by
        simp
      omega
  | succ n ih =>
      intro t hsize key hget
      obtain ⟨L, c, arr⟩ := t
      cases hslot : arr.get? (ihash L key) with
      | none => exact delItemRun_slot_none (Or.inr hslot)
      | some s =>
        cases s with
        | none => exact delItemRun_slot_none (Or.inl hslot)
        | some e =>
          cases e with
          | leaf k v0 =>
              rw [getItem_slot_leaf hslot] at hget
              by_cases hk : k = key
              · rw [if_pos hk] at hget
                exact Option.noConfusion hget
              · exact delItemRun_leaf_miss hslot hk
          | sub u =>
              rw [getItem_slot_sub hslot] at hget
              have hu := sizeOf_sub_lt hslot
              have hsz : sizeOf (IHT.mk L c arr) = 1 + sizeOf L + sizeOf c + sizeOf arr := by
                simp
              have hdu := ih u (by omega) key hget
              rw [delItemRun_sub_err hslot hdu]
              rw [list_set_same hslot]

/-- C10: deleting a key absent from the Recursive Trie Hash Table raises the
not-found error and leaves the table completely unchanged — the returned
state is the original table, every slot (nested tables included) and every
count retaining their prior values. -/
theorem iht_delete_missing_key_atomic (t : IHT) (key : List Nat)
    (habsent : t.getItem key = none) :
    t.delItemRun key = (t, false) :=
  del_missing_aux (sizeOf t) t (Nat.le_refl _) key habsent

/-- Witness for C10: deleting the absent key `[6]` from the table holding
only `([5], 9)` fails and returns the table unchanged. -/
theorem iht_delete_missing_key_witness :
    (singletonIHT 0 [5] 9).delItemRun [6] = (singletonIHT 0 [5] 9, false) :=
  iht_delete_missing_key_atomic (singletonIHT 0 [5] 9) [6]
    (getItem_slot_none (Or.inl rfl))

/-! ## Probe lemmas for the two-level table (claim C5) -/

theorem mem_storedKeysA {β : Type} {arr : List (Option (List Nat × β))}
    {j : Nat} {k : List Nat} {v : β}
    (hj : arr.get? j = some (some (k, v))) : k ∈ storedKeysA arr :=
  List.mem_filterMap.mpr ⟨some (k, v), List.get?_mem hj, rfl⟩

theorem slotProbeGo_found {β : Type} {arr : List (Option (List Nat × β))}
    {key : List Nat} :
    ∀ {steps pos p : Nat}, slotProbeGo arr key false pos steps = some p →
      ∃ v, arr.get? p = some (some (key, v)) := by
  intro steps
  induction steps with
  | zero => intro pos p h; exact Option.noConfusion h
  | succ steps ih =>
      intro pos p h
      rw [slotProbeGo] at h
      split at h
      · exact Option.noConfusion h
      next k v heq =>
        split at h
        next hk =>
          cases Option.some_inj.mp h
          exact ⟨v, by rw [heq, hk]⟩
        next => exact ih h
      · exact Option.noConfusion h

theorem slotProbeGo_miss {β : Type} {arr : List (Option (List Nat × β))}
    {key : List Nat} (hnot : key ∉ storedKeysA arr) :
    ∀ (steps pos : Nat), slotProbeGo arr key false pos steps = none := by
  intro steps
  induction steps with
  | zero => intro pos; rfl
  | succ steps ih =>
      intro pos
      rw [slotProbeGo]
      split
      · rfl
      next k v heq =>
        split
        next hk =>
          rw [hk] at heq
          exact absurd (mem_storedKeysA heq) hnot
        next => exact ih _
      · rfl

theorem storedKeysA_clear_unique {β : Type} :
    ∀ {arr : List (Option (List Nat × β))} {pos : Nat} {k : List Nat} {v : β},
      (storedKeysA arr).Nodup → arr.get? pos = some (some (k, v)) →
      k ∉ storedKeysA (arr.set pos none) := by
  intro arr
  induction arr with
  | nil => intro pos k v _ h; exact Option.noConfusion h
  | cons s rest ih =>
      intro pos k v hnd hp
      match pos, hp with
      | 0, hp =>
          rw [Option.some_inj.mp hp] at hnd
          rw [List.set_cons_zero]
          have : storedKeysA (some (k, v) :: rest) = k :: storedKeysA rest := rfl
          rw [this] at hnd
          have : storedKeysA ((none : Option (List Nat × β)) :: rest) = storedKeysA rest := rfl
          rw [this]
          exact (List.nodup_cons.mp hnd).1
      | pos + 1, hp =>
          rw [List.set_cons_succ]
          have hkrest : k ∈ storedKeysA rest := mem_storedKeysA hp
          cases s with
          | none =>
              have e1 : storedKeysA ((none : Option (List Nat × β)) :: rest) = storedKeysA rest := rfl
              rw [e1] at hnd
              have e2 : storedKeysA ((none : Option (List Nat × β)) :: rest.set pos none) =
                  storedKeysA (rest.set pos none) := rfl
              rw [e2]
              exact ih hnd hp
          | some kv =>
              obtain ⟨k0, v0⟩ := kv
              have e1 : storedKeysA (some (k0, v0) :: rest) = k0 :: storedKeysA rest := rfl
              rw [e1] at hnd
              have e2 : storedKeysA (some (k0, v0) :: rest.set pos none) =
                  k0 :: storedKeysA (rest.set pos none) := rfl
              rw [e2]
              obtain ⟨hk0, hnd'⟩ := List.nodup_cons.mp hnd
              intro hmem
              rcases List.mem_cons.mp hmem with h | h
              · rw [h] at hkrest
                exact hk0 hkrest
              · exact ih hnd' hp h

theorem mem_storedKeysA_set {β : Type} {arr : List (Option (List Nat × β))}
    {j : Nat} {s : Option (List Nat × β)} {x : List Nat}
    (h : x ∈ storedKeysA (arr.set j s)) :
    x ∈ storedKeysA arr ∨ ∃ kv : List Nat × β, s = some kv ∧ x = kv.1 := by
  obtain ⟨e, he, hx⟩ := List.mem_filterMap.mp h
  rcases List.mem_or_eq_of_mem_set he with hmem | heq
  · exact Or.inl (List.mem_filterMap.mpr ⟨e, hmem, hx⟩)
  · subst heq
    cases e with
    | none => exact Option.noConfusion hx
    | some kv =>
        refine Or.inr ⟨kv, rfl, ?_⟩
        simp at hx
        exact hx.symm

theorem notin_storedKeysA_set_none {β : Type} {arr : List (Option (List Nat × β))}
    {j : Nat} {x : List Nat} (h : x ∉ storedKeysA arr) :
    x ∉ storedKeysA (arr.set j none) := by
  intro hmem
  rcases mem_storedKeysA_set hmem with hm | ⟨kv, hkv, _⟩
  · exact h hm
  · exact Option.noConfusion hkv

theorem notin_storedKeysA_set_some {β : Type} {arr : List (Option (List Nat × β))}
    {j : Nat} {x k : List Nat} {v : β} (h : x ∉ storedKeysA arr) (hk : k ≠ x) :
    x ∉ storedKeysA (arr.set j (some (k, v))) := by
  intro hmem
  rcases mem_storedKeysA_set hmem with hm | ⟨kv, hkv, hx⟩
  · exact h hm
  · have h1 : kv.1 = k := by rw [← Option.some_inj.mp hkv]
    exact hk (h1 ▸ hx).symm

theorem lpt_compactFrom_not_mem {V : Type} {k : List Nat} :
    ∀ (fuel : Nat) (t t' : LPT V) (pos : Nat),
      k ∉ storedKeysA t.arr → LPT.compactFrom fuel t pos = some t' →
      k ∉ storedKeysA t'.arr := by
  intro fuel
  induction fuel with
  | zero =>
      intro t t' pos hk h
      rw [LPT.compactFrom] at h
      split at h
      · exact Option.noConfusion h
      · rw [← Option.some_inj.mp h]
        exact hk
      · exact Option.noConfusion h
  | succ fuel ih =>
      intro t t' pos hk h
      rw [LPT.compactFrom] at h
      split at h
      next kj vj heq =>
        split at h
        · exact Option.noConfusion h
        next np hnp =>
          have hkj : kj ≠ k := by
            intro e
            rw [e] at heq
            exact hk (mem_storedKeysA heq)
          refine ih _ t' _ ?_ h
          exact notin_storedKeysA_set_some
            (notin_storedKeysA_set_none hk) hkj
      · rw [← Option.some_inj.mp h]
        exact hk
      · exact Option.noConfusion h

theorem lpt_delPair_not_mem {V : Type} {t t' : LPT V} {key : List Nat}
    (hnd : (storedKeysA t.arr).Nodup)
    (h : t.delPair key = some t') : key ∉ storedKeysA t'.arr := by
  rw [LPT.delPair] at h
  cases hp : t.linearProbe key false with
  | none => rw [hp] at h; exact Option.noConfusion h
  | some pos =>
      rw [hp] at h
      obtain ⟨v, hv⟩ := slotProbeGo_found hp
      exact lpt_compactFrom_not_mem _ _ _ _
        (storedKeysA_clear_unique hnd hv) h

theorem dkt_outerCompact_not_mem {V : Type} {k1 : List Nat} :
    ∀ (fuel : Nat) (t t' : DKT V) (pos : Nat),
      k1 ∉ storedKeysA t.arr → DKT.outerCompact fuel t pos = some t' →
      k1 ∉ storedKeysA t'.arr := by
  intro fuel
  induction fuel with
  | zero =>
      intro t t' pos hk h
      rw [DKT.outerCompact] at h
      split at h
      · exact Option.noConfusion h
      · rw [← Option.some_inj.mp h]
        exact hk
      · exact Option.noConfusion h
  | succ fuel ih =>
      intro t t' pos hk h
      rw [DKT.outerCompact] at h
      split at h
      next kj subj heq =>
        split at h
        · exact Option.noConfusion h
        next np hnp =>
          have hkj : kj ≠ k1 := by
            intro e
            rw [e] at heq
            exact hk (mem_storedKeysA heq)
          refine ih _ t' _ ?_ h
          exact notin_storedKeysA_set_some
            (notin_storedKeysA_set_none hk) hkj
      · rw [← Option.some_inj.mp h]
        exact hk
      · exact Option.noConfusion h

theorem probe2Go_lookup_found {V : Type} {arr : List (Option (List Nat × LPT V))}
    {isz : List Nat} {k1 k2 : List Nat} :
    ∀ {steps pos p1 p2 : Nat} {arr' : List (Option (List Nat × LPT V))},
      DKT.probe2Go arr isz k1 k2 false pos steps = some (p1, p2, arr') →
      arr' = arr ∧ ∃ sub : LPT V, arr.get? p1 = some (some (k1, sub)) ∧
        sub.linearProbe k2 false = some p2 := by
  intro steps
  induction steps with
  | zero => intro pos p1 p2 arr' h; exact Option.noConfusion h
  | succ steps ih =>
      intro pos p1 p2 arr' h
      rw [DKT.probe2Go] at h
      split at h
      · exact Option.noConfusion h
      next q sub heq =>
        split at h
        next hq =>
          cases hp : sub.linearProbe k2 false with
          | none => rw [hp] at h; exact Option.noConfusion h
          | some p2' =>
              rw [hp] at h
              have := Option.some_inj.mp h
              rw [Prod.mk.injEq, Prod.mk.injEq] at this
              obtain ⟨e1, e2, e3⟩ := this
              subst e1
              subst e2
              subst e3
              rw [hq] at heq
              exact ⟨rfl, sub, heq, hp⟩
        next => exact ih h
      · exact Option.noConfusion h

theorem probe2Go_miss {V : Type} {arr : List (Option (List Nat × LPT V))}
    {isz : List Nat} {k1 k2 : List Nat} (hnot : k1 ∉ storedKeysA arr) :
    ∀ (steps pos : Nat), DKT.probe2Go arr isz k1 k2 false pos steps = none := by
  intro steps
  induction steps with
  | zero => intro pos; rfl
  | succ steps ih =>
      intro pos
      rw [DKT.probe2Go]
      split
      · rfl
      next q sub heq =>
        split
        next hq =>
          rw [hq] at heq
          exact absurd (mem_storedKeysA heq) hnot
        next => exact ih _
      · rfl

theorem probe2Go_set_sub_miss {V : Type} {arr : List (Option (List Nat × LPT V))}
    {isz : List Nat} {k1 k2 : List Nat} {p1 : Nat} {sub sub' : LPT V}
    (harr : arr.get? p1 = some (some (k1, sub)))
    (hsub' : sub'.linearProbe k2 false = none) :
    ∀ {steps pos p2 : Nat} {arr' : List (Option (List Nat × LPT V))},
      DKT.probe2Go arr isz k1 k2 false pos steps = some (p1, p2, arr') →
      DKT.probe2Go (arr.set p1 (some (k1, sub'))) isz k1 k2 false pos steps = none := by
  intro steps
  induction steps with
  | zero => intro pos p2 arr' h; exact Option.noConfusion h
  | succ steps ih =>
      intro pos p2 arr' h
      rw [DKT.probe2Go] at h
      rw [DKT.probe2Go]
      split at h
      · exact Option.noConfusion h
      next q sub0 heq =>
        by_cases hq : q = k1
        · rw [if_pos hq] at h
          cases hp : sub0.linearProbe k2 false with
          | none => rw [hp] at h; exact Option.noConfusion h
          | some p2' =>
              rw [hp] at h
              have h2 : some (pos, p2', arr) = some (p1, p2, arr') := h
              have e1 : pos = p1 := by
                have h3 := Option.some_inj.mp h2
                rw [Prod.mk.injEq] at h3
                exact h3.1
              subst e1
              rw [List.get?_set_eq, harr]
              show (if k1 = k1 then _ else _ :
                Option (Nat × Nat × List (Option (List Nat × LPT V)))) = none
              rw [if_pos rfl, hsub']
        · rw [if_neg hq] at h
          have hpos : pos ≠ p1 := by
            intro e
            rw [e, harr] at heq
            simp at heq
            exact hq heq.1.symm
          rw [List.get?_set_ne _ _ (fun e => hpos e.symm), heq]
          show (if q = k1 then _ else _ : Option (Nat × Nat × List (Option (List Nat × LPT V)))) = none
          rw [if_neg hq]
          rw [List.length_set]
          exact ih h
      · exact Option.noConfusion h

theorem dkt_delItem_get_none {d d2 : DKT Nat} {k1 k2 : List Nat}
    (houter : (storedKeysA d.arr).Nodup)
    (hsubs : ∀ g ∈ d.arr.filterMap (fun e => e), (storedKeysA g.2.arr).Nodup)
    (hdel : d.delItem k1 k2 = some d2) :
    d2.getItem k1 k2 = none := by
  rw [DKT.delItem] at hdel
  split at hdel
  · exact Option.noConfusion hdel
  next p1 p2x arrx hp2 =>
    rw [DKT.probe2] at hp2
    obtain ⟨harrx, sub0, hslot, hsubp⟩ := probe2Go_lookup_found hp2
    have hndsub : (storedKeysA sub0.arr).Nodup :=
      hsubs ⟨k1, sub0⟩ (List.mem_filterMap.mpr ⟨some (k1, sub0), List.get?_mem hslot, rfl⟩)
    split at hdel
    next k1q subq heq =>
      rw [hslot] at heq
      simp only [Option.some_inj, Prod.mk.injEq] at heq
      obtain ⟨hk1q, hsubq⟩ := heq
      subst hk1q
      subst hsubq
      split at hdel
      · exact Option.noConfusion hdel
      next sub2 hdp =>
        have hk2gone : k2 ∉ storedKeysA sub2.arr := lpt_delPair_not_mem hndsub hdp
        have hsub2probe : sub2.linearProbe k2 false = none := by
          rw [LPT.linearProbe]
          exact slotProbeGo_miss hk2gone _ _
        split at hdel
        next hemp =>
          have hk1out : k1 ∉ storedKeysA (d.arr.set p1 none) :=
            storedKeysA_clear_unique houter hslot
          have hk1gone : k1 ∉ storedKeysA d2.arr :=
            dkt_outerCompact_not_mem _ _ _ _ hk1out hdel
          rw [DKT.getItem]
          rw [DKT.probe2]
          rw [probe2Go_miss hk1gone _ _]
        next hemp =>
          cases Option.some_inj.mp hdel
          have hts : ({ d with arr := d.arr.set p1 (some (k1, sub2)) } : DKT Nat).tableSize
              = d.tableSize := by
            rw [DKT.tableSize, DKT.tableSize]
            exact List.length_set d.arr p1 _
          rw [DKT.getItem]
          rw [DKT.probe2]
          rw [hts]
          rw [probe2Go_set_sub_miss hslot hsub2probe hp2]
    next hne =>
      exact Option.noConfusion hdel

/-- C5: for every key first inserted into and then deleted from either hash
table — a string key in the Recursive Trie Hash Table (under its
hash-placement invariant), a (key1, key2) pair in the Two-Level Hash Table
(under duplicate-freeness of its stored keys, which every probed state
enjoys) — `contains(key)` returns `false` afterwards and a subsequent `get`
raises the not-found error (`none`). -/
theorem deleted_key_not_contained :
    (∀ (f : Nat) (t t1 t2 : IHT) (k : List Nat) (v : Nat),
        IHT.setItem f t k v = some t1 → IHT.HPb t1 = true →
        t1.delItemRun k = (t2, true) →
        t2.containsKey k = false ∧ t2.getItem k = none) ∧
    (∀ (d d1 d2 : DKT Nat) (k1 k2 : List Nat) (v : Nat),
        d.setItem k1 k2 v = some d1 →
        (storedKeysA d1.arr).Nodup →
        (∀ g ∈ d1.arr.filterMap (fun e => e), (storedKeysA g.2.arr).Nodup) →
        d1.delItem k1 k2 = some d2 →
        d2.contains k1 k2 = false ∧ d2.getItem k1 k2 = none) := by
  constructor
  · intro f t t1 t2 k v hset hhp hdel
    have hnone : t2.getItem k = none := by
      cases hg : t2.getItem k with
      | none => rfl
      | some w =>
          have hmem := getItem_some_mem (sizeOf t2) t2 (Nat.le_refl _) k w hg
          exact absurd hmem
            (del_ok_key_removed (sizeOf t1) t1 t2 (Nat.le_refl _) hhp k hdel)
    refine ⟨?_, hnone⟩
    rw [IHT.containsKey, hnone]
    rfl
  · intro d d1 d2 k1 k2 v hset houter hsubs hdel
    have hnone := dkt_delItem_get_none houter hsubs hdel
    refine ⟨?_, hnone⟩
    rw [DKT.contains, hnone]
    rfl

/-- The sub-table of the witness state for C5 after inserting
`((key1, key2), value) = (([97], [5]), 0)` into a fresh table. -/
def c5Sub1 : LPT Nat :=
  { sizes := DKT_TABLE_SIZES, sizeIndex := 0,
    arr := [some ([5], 0), none, none, none, none], count := 1 }

/-- The two-level table of the C5 witness after the insertion. -/
def c5D1 : DKT Nat :=
  { sizes := DKT_TABLE_SIZES, internalSizes := DKT_TABLE_SIZES, sizeIndex := 0,
    arr := [none, none, some ([97], c5Sub1), none, none], count := 1 }

/-- The two-level table of the C5 witness after the deletion. -/
def c5D2 : DKT Nat :=
  { sizes := DKT_TABLE_SIZES, internalSizes := DKT_TABLE_SIZES, sizeIndex := 0,
    arr := List.replicate 5 none, count := 0 }

/-- Witness for C5 at concrete inputs: the trie key `[97, 1]` inserted into
the empty trie and deleted again, and the pair `([97], [5])` inserted into a
fresh two-level table and deleted again; both lookups fail afterwards. -/
theorem deleted_key_not_contained_witness :
    ((IHT.mk 0 (1 - 1) (((List.replicate IHT_TABLE_SIZE (none : Option IHTEntry)).set
        (ihash 0 [97, 1]) (some (.leaf [97, 1] 7))).set (ihash 0 [97, 1]) none)).containsKey
          [97, 1] = false ∧
      (IHT.mk 0 (1 - 1) (((List.replicate IHT_TABLE_SIZE (none : Option IHTEntry)).set
        (ihash 0 [97, 1]) (some (.leaf [97, 1] 7))).set (ihash 0 [97, 1]) none)).getItem
          [97, 1] = none) ∧
    (c5D2.contains [97] [5] = false ∧ c5D2.getItem [97] [5] = none) :=
  ⟨deleted_key_not_contained.1 3 (emptyIHT 0) (singletonIHT 0 [97, 1] 7) _ [97, 1] 7
      (setItem_emptyIHT 2 0 [97, 1] 7)
      (by simp [singletonIHT, IHT.HPb, slotsOK, slotOK1, ihash, IHT_TABLE_SIZE,
        List.replicate])
      (delItemRun_leaf_match rfl),
   deleted_key_not_contained.2 dktNew c5D1 c5D2 [97] [5] 0 rfl
      (by decide) (by decide) rfl⟩

/-! ## Routes and viruses (`route.py`, `virus.py`, `branch_decision.py`) -/

/-- `BranchDecision` enumeration (its source `branch_decision.py` is not under
`src/`; the spec glossary fixes the outcome set {top, bottom, stop}). -/
inductive BranchDecision : Type where
  | TOP
  | BOTTOM
  | STOP
deriving DecidableEq, Repr

/-- The record type stored on routes; only the fields the claims touch.
`hacked_value` and `risk_factor` are numeric (modelled as rationals),
`hacking_difficulty` an integer, `name` a string (character codes). -/
structure Computer where
  name : List Nat
  hacking_difficulty : Nat
  hacked_value : ℚ
  risk_factor : ℚ
deriving DecidableEq, Repr

/-- The runtime values of the route module, one constructor per Python class
(plus `nil` for `None`), so that `isinstance` checks translate to
constructor matches: a `Route` wrapper holding a store, a `RouteSplit`, a
`RouteSeries`. -/
inductive PyRoute : Type where
  | nil : PyRoute
  | route (store : PyRoute) : PyRoute
  | split (top bottom following : PyRoute) : PyRoute
  | series (computer : Computer) (following : PyRoute) : PyRoute
deriving DecidableEq, Repr

/-- The `.store` attribute: defined on `Route` objects only (`none` models
the `AttributeError` on anything else). -/
def PyRoute.storeOf : PyRoute → Option PyRoute
  | .route s => some s
  | _ => none

/-- `TopVirus.select_branch`: always the top branch. -/
def topSelect (top bottom : PyRoute) : BranchDecision := BranchDecision.TOP

/-- `BottomVirus.select_branch`: always the bottom branch. -/
def bottomSelect (top bottom : PyRoute) : BranchDecision := BranchDecision.BOTTOM

/-- `Route.follow_path`, with the virus's `select_branch` passed as a
function and the visited computers accumulated in order
(`virus_type.add_computer`).  The explicit stack holds the pending
`remove_branch()` stores.  `fuel` bounds the `while True` loop; `none` means
the loop would still be running (or a `None`-store attribute error / a pop
from an empty stack).  At a split the decision is taken, the split's
`following.store` pushed, and the chosen branch's store entered (STOP breaks
the loop); at a series the computer is visited, then the following store is
entered if present, else the stack popped if non-empty, else the loop ends;
anything else pops the stack. -/
def followPath (select : PyRoute → PyRoute → BranchDecision) :
    Nat → PyRoute → List PyRoute → List Computer → Option (List Computer)
  | 0, _, _, _ => none
  | fuel + 1, store, stack, visited =>
    match store with
    | .split top bottom following =>
      let d := select top bottom
      match following.storeOf with
      | none => none
      | some fstore =>
        match d with
        | .TOP =>
          match top.storeOf with
          | some s => followPath select fuel s (fstore :: stack) visited
          | none => none
        | .BOTTOM =>
          match bottom.storeOf with
          | some s => followPath select fuel s (fstore :: stack) visited
          | none => none
        | .STOP => some visited
    | .series comp following =>
      match following.storeOf with
      | none => none
      | some fstore =>
        match fstore with
        | .nil =>
          match stack with
          | [] => some (visited ++ [comp])
          | top1 :: rest => followPath select fuel top1 rest (visited ++ [comp])
        | s => followPath select fuel s stack (visited ++ [comp])
    | _ =>
      match stack with
      | [] => none
      | top1 :: rest => followPath select fuel top1 rest visited

/-- The route `series(A, split(series(B, empty), series(C, empty),
series(D, empty)))` of claim C9, as the store of the outermost `Route`. -/
def routeABCD (A B C D : Computer) : PyRoute :=
  .series A (.route (.split
    (.route (.series B (.route .nil)))
    (.route (.series C (.route .nil)))
    (.route (.series D (.route .nil)))))

/-- C9: following the route `series(A, split(series(B,empty),
series(C,empty), series(D,empty)))` with the always-top policy visits exactly
[A, B, D] in that order, and with the always-bottom policy exactly
[A, C, D]. -/
theorem follow_path_visits_top_bottom (A B C D : Computer) :
    followPath topSelect 10 (routeABCD A B C D) [] [] = some [A, B, D] ∧
    followPath bottomSelect 10 (routeABCD A B C D) [] [] = some [A, C, D] :=
  ⟨rfl, rfl⟩

/-- Tokens of a postfix expression; `num n` stands for a token for which
`token.isdigit()` holds, the others for the four operator tokens. -/
inductive PTok : Type where
  | num (n : Nat)
  | add
  | subtract
  | mul
  | divide
deriving DecidableEq, Repr

/-- `FancyVirus.CALC_STR = "7 3 + 8 - 2 * 2 /"` after `.split()`. -/
def calcTokens : List PTok :=
  [.num 7, .num 3, .add, .num 8, .subtract, .num 2, .mul, .num 2, .divide]

/-- `FancyVirus.eval_postfix`: stack evaluation over the token list, numbers
pushed as floats (modelled as rationals — every operation on the fixed
`CALC_STR` is exact), operators popping `op1` then `op2` and pushing
`op2 ∘ op1`; the final `stack.pop()` is returned.  `none` models the raise on
popping an empty stack. -/
def evalPostfix : List PTok → List ℚ → Option ℚ
  | [], st =>
    match st with
    | x :: _ => some x
    | [] => none
  | .num n :: rest, st => evalPostfix rest ((n : ℚ) :: st)
  | tok :: rest, st =>
    match st with
    | op1 :: op2 :: st' =>
      let res : ℚ :=
        match tok with
        | .add => op2 + op1
        | .subtract => op2 - op1
        | .mul => op2 * op1
        | _ => op2 / op1
      evalPostfix rest (res :: st')
    | _ => none

/-- `FancyVirus.select_when_both_series`: compare the branches' hacked
values against the threshold. -/
def selectWhenBothSeries (topComp botComp : Computer) (threshold : ℚ) :
    BranchDecision :=
  if topComp.hacked_value < threshold then BranchDecision.TOP
  else if botComp.hacked_value > threshold then BranchDecision.BOTTOM
  else BranchDecision.STOP

/-- `FancyVirus.select_branch`: evaluate the fixed postfix expression for the
threshold (`none` if that evaluation raises), then test the branch arguments
with `isinstance(·, RouteSeries)` / `isinstance(·, RouteSplit)` — note the
source tests the `Route` wrapper objects themselves, not their `.store`. -/
def fancySelect (top_branch bottom_branch : PyRoute) : Option BranchDecision :=
  (evalPostfix calcTokens []).map (fun threshold =>
    let topComp : Option Computer :=
      match top_branch with
      | .series c _ => some c
      | _ => none
    let botComp : Option Computer :=
      match bottom_branch with
      | .series c _ => some c
      | _ => none
    let topRoute : Bool :=
      match top_branch with
      | .split _ _ _ => true
      | _ => false
    let botRoute : Bool :=
      match bottom_branch with
      | .split _ _ _ => true
      | _ => false
    match topComp, botComp with
    | some tc, some bc => selectWhenBothSeries tc bc threshold
    | _, _ =>
      if topRoute && !botRoute then BranchDecision.BOTTOM
      else if !topRoute && botRoute then BranchDecision.TOP
      else BranchDecision.TOP)

/-- A computer with hacked value 10 on the top branch of the C8 failing
split. -/
def c8Top : Computer := { name := [116], hacking_difficulty := 1,
                          hacked_value := 10, risk_factor := 0 }

/-- A computer with hacked value 10 on the bottom branch of the C8 failing
split. -/
def c8Bot : Computer := { name := [98], hacking_difficulty := 1,
                          hacked_value := 10, risk_factor := 0 }

/-- C8 (the code violates the claim): `follow_path` hands `select_branch` the
two `Route` wrapper objects of a split, and `FancyVirus.select_branch` tests
`isinstance(top_branch, RouteSeries)` / `RouteSplit` on those wrappers — a
`Route` is neither, so for every split, both-computer splits included, the
method returns TOP and never reaches the hacked-value comparison.  The fixed
postfix expression does evaluate to the threshold 2, and the comparison
helper `select_when_both_series` would return BOTTOM for the failing input
(both hacked values 10), so the decision the claim describes is never
produced: BOTTOM and STOP are unreachable. -/
theorem fancy_select_always_top :
    (∀ (tc bc : Computer) (f1 f2 : PyRoute),
        fancySelect (.route (.series tc f1)) (.route (.series bc f2)) =
          some BranchDecision.TOP) ∧
    evalPostfix calcTokens [] = some 2 ∧
    selectWhenBothSeries c8Top c8Bot 2 = BranchDecision.BOTTOM := by
  refine ⟨fun tc bc f1 f2 => ?_, by norm_num [evalPostfix, calcTokens], ?_⟩
  · rfl
  · rw [selectWhenBothSeries]
    rw [if_neg (by norm_num [c8Top]), if_pos (by norm_num [c8Bot])]

/-! ## Computer manager (`computer_manager.py`) (claim C6) -/

/-- `str(n)` for a natural number, as character codes (most significant digit
first). -/
def natToStr (n : Nat) : List Nat := (Nat.toDigits 10 n).map Char.toNat

/-- Python's `≤` on strings: lexicographic comparison of character codes. -/
def lexLe : List Nat → List Nat → Bool
  | [], _ => true
  | _ :: _, [] => false
  | a :: as, b :: bs =>
      if a < b then true else if b < a then false else lexLe as bs

theorem lexLe_total : ∀ a b : List Nat, (lexLe a b || lexLe b a) = true := by
  intro a
  induction a with
  | nil => intro b; rfl
  | cons x xs ih =>
      intro b
      cases b with
      | nil => rfl
      | cons y ys =>
          rw [lexLe, lexLe]
          rcases Nat.lt_trichotomy x y with h | h | h
          · rw [if_pos h]
            rfl
          · rw [if_neg (by omega), if_neg (by omega),
              if_neg (by omega), if_neg (by omega)]
            exact ih ys
          · rw [if_neg (by omega), if_pos h, if_pos h]
            rw [Bool.or_true]

theorem lexLe_trans :
    ∀ a b c : List Nat, lexLe a b = true → lexLe b c = true → lexLe a c = true := by
  intro a
  induction a with
  | nil => intro b c _ _; rfl
  | cons x xs ih =>
      intro b c hab hbc
      cases b with
      | nil => exact absurd hab (by rw [lexLe]; simp)
      | cons y ys =>
          cases c with
          | nil => exact absurd hbc (by rw [lexLe]; simp)
          | cons z zs =>
              rw [lexLe] at hab hbc ⊢
              rcases Nat.lt_trichotomy x y with h1 | h1 | h1
              · rcases Nat.lt_trichotomy y z with h2 | h2 | h2
                · rw [if_pos (by omega)]
                · rw [if_pos (by omega)]
                · rw [if_neg (by omega), if_pos h2] at hbc
                  exact Bool.noConfusion hbc
              · subst h1
                rcases Nat.lt_trichotomy x z with h2 | h2 | h2
                · rw [if_pos h2]
                · subst h2
                  rw [if_neg (by omega), if_neg (by omega)] at hab hbc ⊢
                  exact ih ys zs hab hbc
                · rw [if_neg (by omega), if_pos h2] at hbc
                  exact Bool.noConfusion hbc
              · rw [if_neg (by omega), if_pos h1] at hab
                exact Bool.noConfusion hab

/-- Modelled from the spec: the stable comparison-based merge sort utility of
section 4.4 (`algorithms/mergesort.py` is not under `src/`), instantiated at
the string ordering used by `group_by_difficulty`. -/
def msort (l : List (List Nat)) : List (List Nat) := l.mergeSort lexLe

/-- `ComputerManager.__init__`: an empty `DoubleKeyTable` of computers. -/
def mgrNew : DKT Computer := DKT.create Computer DKT_TABLE_SIZES DKT_TABLE_SIZES

/-- `ComputerManager.add_computer`: store the computer under
`(str(hacking_difficulty), name)`. -/
def mgrAddComputer (m : DKT Computer) (c : Computer) : Option (DKT Computer) :=
  m.setItem (natToStr c.hacking_difficulty) c.name c

/-- Add a list of computers in order, stopping on failure. -/
def runAdds (m : DKT Computer) : List Computer → Option (DKT Computer)
  | [] => some m
  | c :: rest =>
    match mgrAddComputer m c with
    | some m2 => runAdds m2 rest
    | none => none

/-- `ComputerManager.group_by_difficulty`: mergesort the collected key set,
then one `values(key)` list per key in that order. -/
def groupByDifficulty (m : DKT Computer) : List (List Computer) :=
  (msort (DKT.keys m)).map (fun k => (m.valuesFor k).getD [])

/-- The ordering property claim C6 asserts: every difficulty in a group is at
most every difficulty in any later group — equivalently the flattened list of
the groups' difficulty values is ascending. -/
def GroupsSortedByValue (gs : List (List Computer)) : Prop :=
  List.Pairwise (fun a b => a ≤ b)
    ((gs.map (List.map Computer.hacking_difficulty)).flatten)

/-- Computers of the C6 counterexample: difficulties 9 and 10. -/
def c6C9 : Computer := { name := [120], hacking_difficulty := 9,
                         hacked_value := 0, risk_factor := 0 }

/-- Second computer of the C6 counterexample. -/
def c6C10 : Computer := { name := [121], hacking_difficulty := 10,
                          hacked_value := 0, risk_factor := 0 }

instance GroupsSortedByValue.dec (gs : List (List Computer)) :
    Decidable (GroupsSortedByValue gs) :=
  inferInstanceAs (Decidable (List.Pairwise _ _))

unseal List.merge List.mergeSort in
/-- C6 counterexample: with difficulties 9 and 10 stored, the keys are the
strings `"10" < "9"` in lexicographic order, so `group_by_difficulty` returns
the difficulty-10 group before the difficulty-9 group — the groups are not
ordered by ascending difficulty value. -/
theorem group_by_difficulty_not_value_ordered :
    (runAdds mgrNew [c6C9, c6C10]).map
        (fun m => ((groupByDifficulty m).map (List.map Computer.hacking_difficulty),
          decide (GroupsSortedByValue (groupByDifficulty m)))) =
      some ([[10], [9]], false) := by
  decide

/-- The four computers of the example in C6 (difficulties 40, 20, 20, 30). -/
def c6Four : List Computer :=
  [{ name := [97], hacking_difficulty := 40, hacked_value := 0, risk_factor := 0 },
   { name := [98], hacking_difficulty := 20, hacked_value := 0, risk_factor := 0 },
   { name := [99], hacking_difficulty := 20, hacked_value := 0, risk_factor := 0 },
   { name := [100], hacking_difficulty := 30, hacked_value := 0, risk_factor := 0 }]

unseal List.merge List.mergeSort in
/-- C6 (amended): `group_by_difficulty` returns one group per stored key in
ascending lexicographic order of the stringified difficulties (produced by
the mergesort utility over the collected key set); this coincides with
ascending difficulty value when the difficulty strings share a digit count,
as in the example — difficulties [40, 20, 20, 30] yield the group order
[[20, 20], [30], [40]] — but not in general (see the counterexample). -/
theorem group_by_difficulty_lex_sorted :
    (∀ m : DKT Computer,
        groupByDifficulty m =
          (msort (DKT.keys m)).map (fun k => (m.valuesFor k).getD []) ∧
        List.Pairwise (fun a b => lexLe a b = true) (msort (DKT.keys m))) ∧
    (runAdds mgrNew c6Four).map
        (fun m => (groupByDifficulty m).map (List.map Computer.hacking_difficulty)) =
      some [[20, 20], [30], [40]] := by
  constructor
  · intro m
    exact ⟨rfl, List.sorted_mergeSort lexLe_trans lexLe_total (DKT.keys m)⟩
  · decide
